import Mathlib

/-!
Verification of the codebase-guardian subsystem (`core/codebase_guardian.py`):
the debounced change coalescer, the three-stage healing pipeline
(`_fix_syntax`, `_safe_ast_fixes`, `_ruff_check_and_format`), and the
per-path scheduler handler (`handle_file_change`).

Text is modelled as `List Char`.  The external collaborators (the CST
library's parser and code generator, and the external formatter binary)
are modelled as parameters of a `GuardianEnv`, following the spec's
interface-only treatment of them.
-/

set_option autoImplicit false

/-- Characters on which Python `str.splitlines` splits. -/
def isLineBreak (c : Char) : Bool :=
  c = '\n' || c = '\r' || c = Char.ofNat 0x0b || c = Char.ofNat 0x0c ||
  c = Char.ofNat 0x1c || c = Char.ofNat 0x1d || c = Char.ofNat 0x1e ||
  c = Char.ofNat 0x85 || c = Char.ofNat 0x2028 || c = Char.ofNat 0x2029

/-- Whitespace as stripped by Python `str.lstrip()` / `str.rstrip()` /
no-argument `str.split()` (the ASCII cases that matter here). -/
def isPySpace (c : Char) : Bool :=
  c = ' ' || c = '\t' || c = '\n' || c = '\r' ||
  c = Char.ofNat 0x0b || c = Char.ofNat 0x0c

/-- Python `str.splitlines()`: split at every line-break character,
treating `"\r\n"` as one terminator, and drop a trailing terminator. -/
def splitlines : List Char → List (List Char)
  | [] => []
  | c :: rest =>
    if isLineBreak c then
      if c = '\r' then
        match rest with
        | [] => [[]]
        | d :: r2 =>
          if d = '\n' then [] :: splitlines r2 else [] :: splitlines (d :: r2)
      else [] :: splitlines rest
    else
      match splitlines rest with
      | [] => [[c]]
      | l :: ls => (c :: l) :: ls

/-- Python `"\n".join(lines)`. -/
def joinLines : List (List Char) → List Char
  | [] => []
  | [l] => l
  | l :: ls => l ++ '\n' :: joinLines ls

/-- Python `str.lstrip()`. -/
def lstrip (l : List Char) : List Char := l.dropWhile isPySpace

/-- Python `str.rstrip()`. -/
def rstrip (l : List Char) : List Char := (l.reverse.dropWhile isPySpace).reverse

/-- Python `s.endswith(c)` for a one-character suffix `c`. -/
def endsWithB (c : Char) (l : List Char) : Bool := l.getLast? == some c

/-- Python no-argument `str.split()`: split on whitespace runs,
discarding empty pieces. -/
def pySplitWs : List Char → List (List Char)
  | [] => []
  | [c] => if isPySpace c then [] else [[c]]
  | c :: d :: rest =>
    if isPySpace c then pySplitWs (d :: rest)
    else
      match pySplitWs (d :: rest) with
      | [] => [[c]]
      | w :: ws => if isPySpace d then [c] :: w :: ws else (c :: w) :: ws

/-- `re.sub(r'\\"\\"\\"', '"""', line)`: replace every non-overlapping
occurrence of the six-character sequence backslash-quote backslash-quote
backslash-quote with three quotes, scanning left to right. -/
def fixTripleQuote : List Char → List Char
  | '\\' :: '"' :: '\\' :: '"' :: '\\' :: '"' :: rest =>
    '"' :: '"' :: '"' :: fixTripleQuote rest
  | c :: rest => c :: fixTripleQuote rest
  | [] => []

/-- The characters of `"try"`. -/
def tryS : List Char := ['t', 'r', 'y']

/-- The characters of `"except"`. -/
def exceptS : List Char := ['e', 'x', 'c', 'e', 'p', 't']

/-- The characters of `"finally"`. -/
def finallyS : List Char := ['f', 'i', 'n', 'a', 'l', 'l', 'y']

/-- The characters of `"def "`. -/
def defS : List Char := ['d', 'e', 'f', ' ']

/-- The characters of `"class "`. -/
def classS : List Char := ['c', 'l', 'a', 's', 's', ' ']

/-- The condition `CodebaseDoctor._fix_syntax` tests on `parts = stripped_line.split()`
inside the `except` branch. -/
def exceptPartsOk (parts : List (List Char)) : Bool :=
  (decide (1 < parts.length) && (parts.headD [] == exceptS) &&
    !(endsWithB ':' (parts.getLastD []))) ||
  ((parts.length == 1) && (parts.headD [] == exceptS))

/-- The colon-repair part of `CodebaseDoctor._fix_syntax`, acting on one line
(everything in the loop body before the `re.sub`); `lstrip line` is the
loop's `stripped_line`. -/
def colonFixed (line : List Char) : List Char :=
  if tryS.isPrefixOf (lstrip line) && !(endsWithB ':' (lstrip line)) then
    line ++ [':']
  else if exceptS.isPrefixOf (lstrip line) && !(endsWithB ':' (lstrip line)) then
    if exceptPartsOk (pySplitWs (lstrip line)) then line ++ [':'] else line
  else if ((lstrip line == finallyS) && !(endsWithB ':' (lstrip line))) ||
      (defS.isPrefixOf (lstrip line) && endsWithB ')' (lstrip line) &&
        !(endsWithB ':' (lstrip line))) then
    line ++ [':']
  else if classS.isPrefixOf (lstrip line) then
    if !(endsWithB ':' (rstrip ((lstrip line).takeWhile (fun c => c ≠ '#')))) then
      line ++ [':']
    else line
  else line

/-- One iteration of the line loop of `CodebaseDoctor._fix_syntax`:
colon repair followed by the triple-quote `re.sub`. -/
def processLine (line : List Char) : List Char :=
  fixTripleQuote (colonFixed line)

/-- `CodebaseDoctor._fix_syntax`: split into lines, process each line,
join with `"\n"`. -/
def fixSyntax (code : List Char) : List Char :=
  joinLines ((splitlines code).map processLine)

/-- A function parameter of the CST (`libcst.Param`): only its name matters
to the rewrites. -/
structure Param where
  name : String
deriving DecidableEq

/-- The closed set of CST node variants relevant to the two structural
rewrites of `CodebaseDoctor._safe_ast_fixes` (call expressions and
function definitions), with an explicit catch-all for every other node. -/
inductive CstNode where
  | Name (value : String)
  | Attribute (value : CstNode) (attr : String)
  | Call (func : CstNode) (args : List CstNode)
  | FunctionDef (name : String) (params : List Param) (body : List CstNode)
  | ClassDef (name : String) (body : List CstNode)
  | Other (children : List CstNode)

mutual

/-- The rewrite that the body of `LoggerFixCommand.visit_Call` describes,
applied at every node: at a call whose callee is an attribute access on a
bare name, rename the attribute `warn` to `warning` when the bare name is
`logger`.  This is the *intended* transform only: libcst's
`CSTTransformer.on_visit` reduces the value a `visit_*` method returns to a
boolean traversal flag and discards the node, and `LoggerFixCommand`
defines no `leave_*` method, so the program never applies this rewrite
(see `transformModule`). -/
def loggerFixIntended : CstNode → CstNode
  | .Name v => .Name v
  | .Attribute v a => .Attribute (loggerFixIntended v) a
  | .Call f args =>
    let f' := loggerFixIntended f
    let args' := loggerFixIntendedList args
    match f' with
    | .Attribute (.Name rcv) attr =>
      if attr = "warn" ∧ rcv = "logger" then
        .Call (.Attribute (.Name rcv) "warning") args'
      else .Call (.Attribute (.Name rcv) attr) args'
    | g => .Call g args'
  | .FunctionDef n ps b => .FunctionDef n ps (loggerFixIntendedList b)
  | .ClassDef n b => .ClassDef n (loggerFixIntendedList b)
  | .Other cs => .Other (loggerFixIntendedList cs)

def loggerFixIntendedList : List CstNode → List CstNode
  | [] => []
  | n :: ns => loggerFixIntended n :: loggerFixIntendedList ns

end

mutual

/-- The rewrite that the body of `SelfAdderCommand.visit_FunctionDef`
describes, applied at every node: at a function definition whose parameter
list is nonempty and whose first parameter is named neither `self` nor
`cls`, prepend a synthetic `self` parameter.  This is the *intended*
transform only: libcst discards the node a `visit_*` method returns, and
`SelfAdderCommand` defines no `leave_*` method, so the program never
applies this rewrite (see `transformModule`). -/
def selfAdderIntended : CstNode → CstNode
  | .Name v => .Name v
  | .Attribute v a => .Attribute (selfAdderIntended v) a
  | .Call f args => .Call (selfAdderIntended f) (selfAdderIntendedList args)
  | .FunctionDef n ps b =>
    match ps with
    | [] => .FunctionDef n [] (selfAdderIntendedList b)
    | p :: rest =>
      if p.name = "self" ∨ p.name = "cls" then
        .FunctionDef n (p :: rest) (selfAdderIntendedList b)
      else
        .FunctionDef n (⟨"self"⟩ :: p :: rest) (selfAdderIntendedList b)
  | .ClassDef n b => .ClassDef n (selfAdderIntendedList b)
  | .Other cs => .Other (selfAdderIntendedList cs)

def selfAdderIntendedList : List CstNode → List CstNode
  | [] => []
  | n :: ns => selfAdderIntended n :: selfAdderIntendedList ns

end

/-- Result of invoking the external formatter once: normal exit with its
stdout, non-zero exit with its stderr, or the binary being absent
(`FileNotFoundError`). -/
inductive ToolResult where
  | ok (out : List Char)
  | failed (err : List Char)
  | missing
deriving DecidableEq

/-- The distinct operator-facing messages the guardian can produce. -/
inductive Msg where
  | ruffFormatFailed
  | ruffCheckFailed
  | ruffMissing
  | criticalError
  | updatedDocs
  | processed
  | errorIn
deriving DecidableEq

/-- One console line: either a `show_notification` call (with its `error`
flag) or a raw `print` (the one in `CodebaseDoctor.heal`). -/
inductive Event where
  | notif (error : Bool) (m : Msg)
  | consolePrint (m : Msg)
deriving DecidableEq

/-- The external collaborators of the pipeline, treated as black boxes per
the spec: the CST parser and code generator, the two formatter
invocations, and whether the documentation step's file read raises. -/
structure GuardianEnv where
  parse : List Char → Option CstNode
  codegen : CstNode → List Char
  fmt : List Char → ToolResult
  chk : List Char → ToolResult
  docFail : Bool

/-- What one `transform_module` call of `LoggerFixCommand` or
`SelfAdderCommand` actually does to the tree: nothing.  libcst's
`CSTTransformer.on_visit` calls the command's `visit_*` method, reduces its
return value to `False if retval is False else True` (a traversal flag)
and discards the returned node; only a `leave_*` method, run from
`on_leave`, can replace a node, and neither command defines one.  The
rewrites built inside `visit_Call` / `visit_FunctionDef` are therefore
dead code and `transform_module` is the identity on the tree. -/
def transformModule (t : CstNode) : CstNode := t

/-- `CodebaseDoctor._safe_ast_fixes`: parse, run `LoggerFixCommand` then
`SelfAdderCommand` through `transform_module` (each a no-op on the tree,
see `transformModule`), re-serialize; `none` when parsing raises. -/
def safeAstFixes (env : GuardianEnv) (code : List Char) : Option (List Char) :=
  (env.parse code).map (fun t => env.codegen (transformModule (transformModule t)))

/-- `CodebaseDoctor._ruff_check_and_format`: run `ruff format` on the code,
falling back to its input on non-zero exit; then run `ruff check --fix` on
the result, with the same fallback; if either subprocess cannot be spawned
at all, return the original stage input.  Every failure is reported through
`show_notification(..., error=True)` and none is fatal.  Returns the stage
output together with the emitted events. -/
def ruffCheckAndFormat (env : GuardianEnv) (code : List Char) :
    List Char × List Event :=
  match env.fmt code with
  | .missing => (code, [.notif true .ruffMissing])
  | .failed _ =>
    match env.chk code with
    | .missing => (code, [.notif true .ruffFormatFailed, .notif true .ruffMissing])
    | .failed _ => (code, [.notif true .ruffFormatFailed, .notif true .ruffCheckFailed])
    | .ok y => (y, [.notif true .ruffFormatFailed])
  | .ok f =>
    match env.chk f with
    | .missing => (code, [.notif true .ruffMissing])
    | .failed _ => (f, [.notif true .ruffCheckFailed])
    | .ok y => (y, [])

/-- Result of one `CodebaseDoctor.heal` run: its boolean return value, the
on-disk content afterwards, and the console events it produced. -/
structure HealOut where
  succeeded : Bool
  disk : List Char
  events : List Event
deriving DecidableEq

/-- `CodebaseDoctor.heal`: read the file, run stage 1, stage 2 and stage 3
in order, write the result back and return `True`; if stage 2's parse
raises, the exception is caught, a critical-error line is printed, nothing
is written, and `False` is returned. -/
def heal (env : GuardianEnv) (disk : List Char) : HealOut :=
  match safeAstFixes env (fixSyntax disk) with
  | none => ⟨false, disk, [.consolePrint .criticalError]⟩
  | some safeFixed =>
    let r := ruffCheckAndFormat env safeFixed
    ⟨true, r.1, r.2⟩

/-- `UnifiedGuardian.handle_file_change`: heal, then (on heal success)
refresh documentation, then notify `Processed`; any exception in the
sequence is caught and turned into a single error notification.  The doc
step reads the file and, if that read raises, the handler's `except`
branch fires instead of the remaining notifications. -/
def handleFileChange (env : GuardianEnv) (disk : List Char) :
    List Char × List Event :=
  let h := heal env disk
  if h.succeeded then
    if env.docFail then
      (h.disk, h.events ++ [.notif true .errorIn])
    else
      (h.disk, h.events ++ [.notif false .updatedDocs, .notif false .processed])
  else
    (h.disk, h.events ++ [.notif false .processed])

/-- `UnifiedGuardian.change_cache` as an insertion-ordered association
list from watched path to the timestamp of its last change event. -/
def ChangeCache : Type := List (String × ℚ)

/-- The watched paths of a cache, in insertion order. -/
def cacheKeys (cache : List (String × ℚ)) : List String := cache.map Prod.fst

/-- `GuardianHandler.on_modified`'s cache update
(`self.guardian.change_cache[path] = time.time()`): Python dict upsert —
overwrite the value in place when the key is present, append otherwise. -/
def recordChange (cache : List (String × ℚ)) (p : String) (t : ℚ) :
    List (String × ℚ) :=
  if p ∈ cacheKeys cache then
    cache.map (fun e => if e.1 = p then (e.1, t) else e)
  else cache ++ [(p, t)]

/-- A burst of `Record` calls for the same path, in order. -/
def recordSeq (cache : List (String × ℚ)) (p : String) (ts : List ℚ) :
    List (String × ℚ) :=
  ts.foldl (fun c t => recordChange c p t) cache

/-- `UnifiedGuardian.process_changes`: select every entry whose debounce
window has elapsed (`now - timestamp > window`), dispatch those paths, and
delete them from the cache.  Returns the dispatched paths and the
remaining cache. -/
def processChanges (cache : List (String × ℚ)) (now window : ℚ) :
    List String × List (String × ℚ) :=
  ((cache.filter (fun e => decide (window < now - e.2))).map Prod.fst,
   cache.filter (fun e => !decide (window < now - e.2)))

/-- A concrete input on which stage 1 is not idempotent, combining the three
failure modes: a `class` header line carrying a `#` comment (gains one more
colon on every pass), a line on which the triple-quote `re.sub` creates a
fresh occurrence of its own pattern, and a trailing empty line that the
join/split round-trip drops. -/
def xC5 : List Char :=
  "class A #\n".data ++
    ['\\', '"', '\\', '"', '\\', '\\', '"', '\\', '"', '\\', '"'] ++
    "\n\n".data

/-- An environment in which the CST parser rejects every input. -/
def envUnparsable : GuardianEnv where
  parse := fun _ => none
  codegen := fun _ => []
  fmt := fun _ => ToolResult.missing
  chk := fun _ => ToolResult.missing
  docFail := false

/-- An environment in which parsing succeeds (on a trivial tree) but the
external formatter binary is absent. -/
def envNoRuff : GuardianEnv where
  parse := fun _ => some (CstNode.Other [])
  codegen := fun _ => ['o', 'k']
  fmt := fun _ => ToolResult.missing
  chk := fun _ => ToolResult.missing
  docFail := false

theorem cacheKeys_recordChange_nodup (cache : List (String × ℚ)) (p : String) (t : ℚ)
    (h : (cacheKeys cache).Nodup) :
    (cacheKeys (recordChange cache p t)).Nodup := by
  unfold recordChange
  split
  case isTrue hc =>
    have heq : cacheKeys (cache.map fun e => if e.1 = p then (e.1, t) else e) =
        cacheKeys cache := by
      unfold cacheKeys
      rw [List.map_map]
      apply List.map_congr_left
      intro e _
      by_cases he : e.1 = p <;> simp [he]
    rw [heq]
    exact h
  case isFalse hc =>
    unfold cacheKeys at h hc ⊢
    rw [List.map_append, List.nodup_append]
    refine ⟨h, by simp, ?_⟩
    intro a ha hap
    simp only [List.map_cons, List.map_nil, List.mem_singleton] at hap
    subst hap
    exact hc (by simpa using ha)

theorem recordSeq_nodup (p : String) (ts : List ℚ) :
    ∀ cache : List (String × ℚ), (cacheKeys cache).Nodup →
      (cacheKeys (recordSeq cache p ts)).Nodup := by
  induction ts with
  | nil => intro cache h; exact h
  | cons t ts ih =>
    intro cache h
    exact ih (recordChange cache p t) (cacheKeys_recordChange_nodup cache p t h)

theorem lookup_map_update (cache : List (String × ℚ)) (p : String) (t : ℚ)
    (hc : p ∈ cacheKeys cache) :
    List.lookup p (cache.map (fun e => if e.1 = p then (e.1, t) else e)) = some t := by
  induction cache with
  | nil => simp [cacheKeys] at hc
  | cons e es ih =>
    obtain ⟨k, v⟩ := e
    by_cases he : k = p
    · subst he
      simp only [List.map_cons]
      simp [List.lookup]
    · simp only [List.map_cons]
      have hk : ((k, v).1 = p) = False := by simp [he]
      simp only [hk, if_false]
      rw [List.lookup]
      have : (p == k) = false := by simp [Ne.symm he]
      rw [this]
      simp only [cacheKeys, List.map_cons, List.mem_cons] at hc
      exact ih (by simpa [cacheKeys] using hc.resolve_left (Ne.symm he))

theorem lookup_append_self (cache : List (String × ℚ)) (p : String) (t : ℚ)
    (hc : p ∉ cacheKeys cache) :
    List.lookup p (cache ++ [(p, t)]) = some t := by
  induction cache with
  | nil => simp [List.lookup]
  | cons e es ih =>
    obtain ⟨k, v⟩ := e
    simp only [cacheKeys, List.map_cons, List.mem_cons, not_or] at hc
    rw [List.cons_append, List.lookup]
    have : (p == k) = false := by simp [hc.1]
    rw [this]
    exact ih (by simpa [cacheKeys] using hc.2)

theorem lookup_recordChange (cache : List (String × ℚ)) (p : String) (t : ℚ) :
    List.lookup p (recordChange cache p t) = some t := by
  unfold recordChange
  split
  case isTrue hc => exact lookup_map_update cache p t hc
  case isFalse hc => exact lookup_append_self cache p t hc

theorem recordSeq_lookup_last (p : String) (ts : List ℚ) (tN : ℚ)
    (h : ts.getLast? = some tN) :
    ∀ cache : List (String × ℚ), List.lookup p (recordSeq cache p ts) = some tN := by
  induction ts with
  | nil => simp at h
  | cons t ts ih =>
    intro cache
    cases ts with
    | nil =>
      simp only [List.getLast?_singleton, Option.some.injEq] at h
      subst h
      exact lookup_recordChange cache p t
    | cons t' ts' =>
      rw [List.getLast?_cons_cons] at h
      exact ih h (recordChange cache p t)

theorem recordChange_key_time (cache : List (String × ℚ)) (p : String) (t : ℚ) :
    ∀ e ∈ recordChange cache p t, e.1 = p → e.2 = t := by
  unfold recordChange
  split
  case isTrue hc =>
    intro e he hep
    rw [List.mem_map] at he
    obtain ⟨e', -, rfl⟩ := he
    by_cases h : e'.1 = p
    · simp [h]
    · simp only [h, if_false] at hep

  case isFalse hc =>
    intro e he hep
    rw [List.mem_append] at he
    cases he with
    | inl h =>
      exact absurd (hep ▸ List.mem_map_of_mem Prod.fst h) hc
    | inr h =>
      simp only [List.mem_singleton] at h
      subst h
      rfl

theorem recordChange_mem_self (cache : List (String × ℚ)) (p : String) (t : ℚ) :
    ∃ e ∈ recordChange cache p t, e.1 = p ∧ e.2 = t := by
  unfold recordChange
  split
  case isTrue hc =>
    unfold cacheKeys at hc
    rw [List.mem_map] at hc
    obtain ⟨e', he', rfl⟩ := hc
    exact ⟨(e'.1, t), List.mem_map.mpr ⟨e', he', by simp⟩, rfl, rfl⟩
  case isFalse hc =>
    exact ⟨(p, t), List.mem_append.mpr (Or.inr (by simp)), rfl, rfl⟩

theorem nodup_keys_entry_eq (cache : List (String × ℚ))
    (hnd : (cacheKeys cache).Nodup) {e1 e2 : String × ℚ}
    (h1 : e1 ∈ cache) (h2 : e2 ∈ cache) (h : e1.1 = e2.1) : e1 = e2 := by
  induction cache with
  | nil => simp at h1
  | cons a l ih =>
    rw [cacheKeys, List.map_cons, List.nodup_cons] at hnd
    rcases List.mem_cons.mp h1 with rfl | h1' <;> rcases List.mem_cons.mp h2 with rfl | h2'
    · rfl
    · exact absurd (h ▸ List.mem_map_of_mem Prod.fst h2') hnd.1
    · exact absurd (h ▸ List.mem_map_of_mem Prod.fst h1') hnd.1
    · exact ih hnd.2 h1' h2'

theorem mem_processChanges_selected (cache : List (String × ℚ))
    (now window : ℚ) (q : String) :
    q ∈ (processChanges cache now window).1 ↔
      ∃ e ∈ cache, e.1 = q ∧ window < now - e.2 := by
  unfold processChanges
  simp only [List.mem_map, List.mem_filter, decide_eq_true_eq]
  constructor
  · rintro ⟨e, ⟨he, helapsed⟩, rfl⟩
    exact ⟨e, he, rfl, helapsed⟩
  · rintro ⟨e, he, rfl, helapsed⟩
    exact ⟨e, ⟨he, helapsed⟩, rfl⟩

/-- Claim C3: a burst of `Record` calls for one path keeps the pending
collection holding at most one entry for that path at every intermediate
point, and the surviving entry carries the timestamp of the last call. -/
theorem record_coalesces (cache : List (String × ℚ)) (p : String) (ts : List ℚ)
    (hnd : (cacheKeys cache).Nodup) :
    ((cacheKeys (recordSeq cache p ts)).Nodup) ∧
    (∀ n, List.count p (cacheKeys (recordSeq cache p (ts.take n))) ≤ 1) ∧
    (∀ tN, ts.getLast? = some tN →
      List.lookup p (recordSeq cache p ts) = some tN) := by
  refine ⟨recordSeq_nodup p ts cache hnd, ?_, ?_⟩
  · intro n
    exact List.nodup_iff_count_le_one.mp (recordSeq_nodup p (ts.take n) cache hnd) p
  · intro tN h
    exact recordSeq_lookup_last p ts tN h cache

/-- Witness for C3: three rapid records collapse to one entry carrying the
last timestamp. -/
theorem record_coalesces_witness :
    (cacheKeys ([] : List (String × ℚ))).Nodup ∧
    (cacheKeys (recordSeq [] "a.py" [1, 2, 3])).Nodup ∧
    (∀ n, List.count "a.py" (cacheKeys (recordSeq [] "a.py" ([1, 2, 3].take n))) ≤ 1) ∧
    (∀ tN, ([1, 2, 3] : List ℚ).getLast? = some tN →
      List.lookup "a.py" (recordSeq [] "a.py" [1, 2, 3]) = some tN) :=
  ⟨by simp [cacheKeys], record_coalesces [] "a.py" [1, 2, 3] (by simp [cacheKeys])⟩

/-- Claim C4: a path recorded at `t0` is not selected by a drain at
`t0 + window - ε` and is selected at `t0 + window + ε` (for `ε > 0`);
every selected path is removed from the pending collection by the drain,
and every non-elapsed entry survives with its timestamp unchanged. -/
theorem drain_debounce_boundary (cache : List (String × ℚ)) (p : String)
    (t0 window ε : ℚ) (hε : 0 < ε) (hnd : (cacheKeys cache).Nodup) :
    (p ∉ (processChanges (recordChange cache p t0) (t0 + window - ε) window).1) ∧
    (p ∈ (processChanges (recordChange cache p t0) (t0 + window + ε) window).1) ∧
    (∀ now q, q ∈ (processChanges cache now window).1 →
      q ∉ cacheKeys (processChanges cache now window).2) ∧
    (∀ now e, e ∈ cache → ¬ (window < now - e.2) →
      e ∈ (processChanges cache now window).2) := by
  refine ⟨?_, ?_, ?_, ?_⟩
  · intro hmem
    rw [mem_processChanges_selected] at hmem
    obtain ⟨e, he, hep, helapsed⟩ := hmem
    rw [recordChange_key_time cache p t0 e he hep] at helapsed
    linarith
  · rw [mem_processChanges_selected]
    obtain ⟨e, he, hep, het⟩ := recordChange_mem_self cache p t0
    refine ⟨e, he, hep, ?_⟩
    rw [het]
    linarith
  · intro now q hsel hrem
    rw [mem_processChanges_selected] at hsel
    obtain ⟨e1, he1, he1q, h1⟩ := hsel
    unfold processChanges cacheKeys at hrem
    rw [List.mem_map] at hrem
    obtain ⟨e2, he2, he2q⟩ := hrem
    rw [List.mem_filter] at he2
    have := nodup_keys_entry_eq cache hnd he1 he2.1 (by rw [he1q, he2q])
    subst this
    simp only [Bool.not_eq_true', decide_eq_false_iff_not] at he2
    exact he2.2 h1
  · intro now e he helapsed
    unfold processChanges
    rw [List.mem_filter]
    exact ⟨he, by simpa using helapsed⟩

/-- Witness for C4: a single freshly-recorded path around the boundary. -/
theorem drain_debounce_boundary_witness :
    (0 : ℚ) < 1 ∧ (cacheKeys ([] : List (String × ℚ))).Nodup ∧
    (("a.py" ∉ (processChanges (recordChange [] "a.py" 0) (0 + 2 - 1) 2).1) ∧
     ("a.py" ∈ (processChanges (recordChange [] "a.py" 0) (0 + 2 + 1) 2).1) ∧
     (∀ now q, q ∈ (processChanges [] now 2).1 →
       q ∉ cacheKeys (processChanges [] now 2).2) ∧
     (∀ now e, e ∈ ([] : List (String × ℚ)) → ¬ ((2 : ℚ) < now - e.2) →
       e ∈ (processChanges [] now 2).2)) :=
  ⟨by norm_num, by simp [cacheKeys],
    drain_debounce_boundary [] "a.py" 0 2 1 (by norm_num) (by simp [cacheKeys])⟩

/-- Claim C1: if the text cannot be parsed even after stage 1's syntax
patch, `heal` aborts for the file: it reports failure (`False`), leaves the
on-disk content byte-for-byte unchanged, and no later stage runs (the only
console output is the critical-error print; no formatter event occurs). -/
theorem heal_aborts_on_unparsable (env : GuardianEnv) (disk : List Char)
    (h : env.parse (fixSyntax disk) = none) :
    heal env disk = ⟨false, disk, [Event.consolePrint Msg.criticalError]⟩ := by
  simp [heal, safeAstFixes, h]

/-- Witness for C1: a concrete unparsable-input run. -/
theorem heal_aborts_on_unparsable_witness :
    envUnparsable.parse (fixSyntax ['x']) = none ∧
    heal envUnparsable ['x'] = ⟨false, ['x'], [Event.consolePrint Msg.criticalError]⟩ :=
  ⟨rfl, heal_aborts_on_unparsable envUnparsable ['x'] rfl⟩

/-- Claim C2: in stage 3, a non-zero exit of either formatter invocation
makes that invocation fall back to its own input (with a warning, and the
pipeline continuing to the next invocation), and an absent binary makes
the whole stage a pass-through, with the pipeline run still succeeding and
the written file equal to stage 2's output. -/
theorem ruff_degrades_gracefully :
    (∀ (env : GuardianEnv) (code err : List Char), env.fmt code = ToolResult.failed err →
      Event.notif true Msg.ruffFormatFailed ∈ (ruffCheckAndFormat env code).2 ∧
      (ruffCheckAndFormat env code).1 =
        (match env.chk code with
         | ToolResult.ok y => y
         | ToolResult.failed _ => code
         | ToolResult.missing => code)) ∧
    (∀ (env : GuardianEnv) (code f err : List Char), env.fmt code = ToolResult.ok f →
      env.chk f = ToolResult.failed err →
      ruffCheckAndFormat env code = (f, [Event.notif true Msg.ruffCheckFailed])) ∧
    (∀ (env : GuardianEnv) (code : List Char), env.fmt code = ToolResult.missing →
      ruffCheckAndFormat env code = (code, [Event.notif true Msg.ruffMissing])) ∧
    (∀ (env : GuardianEnv) (disk : List Char) (t : CstNode),
      env.parse (fixSyntax disk) = some t →
      (∀ s, env.fmt s = ToolResult.missing) →
      heal env disk = ⟨true, env.codegen (transformModule (transformModule t)),
        [Event.notif true Msg.ruffMissing]⟩) := by
  refine ⟨?_, ?_, ?_, ?_⟩
  · intro env code err h
    unfold ruffCheckAndFormat
    rw [h]
    cases hc : env.chk code <;> simp
  · intro env code f err h1 h2
    unfold ruffCheckAndFormat
    rw [h1]
    simp only []
    rw [h2]
  · intro env code h
    unfold ruffCheckAndFormat
    rw [h]
  · intro env disk t hp hm
    unfold heal safeAstFixes
    rw [hp]
    simp only [Option.map_some']
    unfold ruffCheckAndFormat
    rw [hm]

/-- Witness for C2: with the formatter binary absent and a parse that
succeeds, the run succeeds and writes stage 2's output. -/
theorem ruff_degrades_gracefully_witness :
    envNoRuff.parse (fixSyntax ['x']) = some (CstNode.Other []) ∧
    heal envNoRuff ['x'] = ⟨true, ['o', 'k'], [Event.notif true Msg.ruffMissing]⟩ :=
  ⟨rfl, ruff_degrades_gracefully.2.2.2 envNoRuff ['x'] (CstNode.Other []) rfl (fun _ => rfl)⟩

/-- Claim C6 is a code bug: the spec's scenario — `def f(x)` inside a
class body becomes `def f(self, x)` — is what the code's own comment
(`Add missing self to methods`) announces, but the rewrite is built in
`visit_FunctionDef`, whose returned node libcst discards, so stage 2
returns the tree unchanged.  At the failing input, the program's
`transform_module` (twice, as `_safe_ast_fixes` runs it) is the identity,
while the rewrite the method body describes would prepend `self`. -/
theorem selfAdder_never_applied :
    transformModule (transformModule
        (CstNode.ClassDef "C" [CstNode.FunctionDef "f" [⟨"x"⟩] [CstNode.Other []]])) =
      CstNode.ClassDef "C" [CstNode.FunctionDef "f" [⟨"x"⟩] [CstNode.Other []]] ∧
    selfAdderIntended
        (CstNode.ClassDef "C" [CstNode.FunctionDef "f" [⟨"x"⟩] [CstNode.Other []]]) =
      CstNode.ClassDef "C" [CstNode.FunctionDef "f" [⟨"self"⟩, ⟨"x"⟩] [CstNode.Other []]] ∧
    transformModule (transformModule
        (CstNode.ClassDef "C" [CstNode.FunctionDef "f" [⟨"x"⟩] [CstNode.Other []]])) ≠
      CstNode.ClassDef "C" [CstNode.FunctionDef "f" [⟨"self"⟩, ⟨"x"⟩] [CstNode.Other []]] := by
  refine ⟨rfl, rfl, ?_⟩
  intro h
  simp [transformModule] at h

/-- Claim C7 is a code bug: the code's comments (`Fix logger.warn →
logger.warning`, `Replace 'warn' with 'warning'`) announce the rename, but
the rewrite is built in `visit_Call`, whose returned node libcst discards,
so stage 2 returns every call unchanged.  At the failing input
`logger.warn(...)`, the program's `transform_module` is the identity,
while the rewrite the method body describes would rename the attribute. -/
theorem loggerFix_never_applied :
    transformModule (transformModule
        (CstNode.Call (CstNode.Attribute (CstNode.Name "logger") "warn") [])) =
      CstNode.Call (CstNode.Attribute (CstNode.Name "logger") "warn") [] ∧
    loggerFixIntended (CstNode.Call (CstNode.Attribute (CstNode.Name "logger") "warn") []) =
      CstNode.Call (CstNode.Attribute (CstNode.Name "logger") "warning") [] ∧
    transformModule (transformModule
        (CstNode.Call (CstNode.Attribute (CstNode.Name "logger") "warn") [])) ≠
      CstNode.Call (CstNode.Attribute (CstNode.Name "logger") "warning") [] := by
  refine ⟨rfl, rfl, ?_⟩
  intro h
  simp [transformModule] at h

/-- Counterexample to claim C8 as stated: when the heal fails (here: the
parse fails), `handle_file_change` still ends with the success-styled
`Processed` notification, not an error notification — `heal` swallows its
own failure and returns `False`, and the handler notifies success
unconditionally. -/
theorem handleFileChange_success_notif_on_failed_heal :
    (heal envUnparsable ['y']).succeeded = false ∧
    (handleFileChange envUnparsable ['y']).2.getLast? =
      some (Event.notif false Msg.processed) ∧
    (handleFileChange envUnparsable ['y']).2.getLast? ≠
      some (Event.notif true Msg.errorIn) := by
  refine ⟨rfl, rfl, by decide⟩

/-- Claim C8 (amended): the per-path handler is a total function (no
exception propagates: every failure of the heal stage is absorbed inside
`heal`, and a doc-refresh exception is caught by the handler), and each
processed path yields exactly one terminal notification — an error one
exactly when the heal succeeded and the doc-refresh step raised, and the
success-styled `Processed` one otherwise, including when the heal merely
reported failure. -/
theorem handleFileChange_terminal_notification (env : GuardianEnv) (disk : List Char) :
    (handleFileChange env disk).2 ≠ [] ∧
    (handleFileChange env disk).2.getLast? =
      some (if (heal env disk).succeeded && env.docFail then
        Event.notif true Msg.errorIn
      else Event.notif false Msg.processed) := by
  unfold handleFileChange
  cases hs : (heal env disk).succeeded <;> cases hd : env.docFail <;>
    simp [hs, hd, List.getLast?_concat]

theorem splitlines_nil : splitlines [] = [] := rfl
theorem splitlines_cr_nil : splitlines ['\r'] = [[]] := rfl
theorem splitlines_crlf (r2 : List Char) :
    splitlines ('\r' :: '\n' :: r2) = [] :: splitlines r2 := by
  simp [splitlines, show isLineBreak '\r' = true from by decide]
theorem splitlines_cr_cons (d : Char) (r2 : List Char) (hd : d ≠ '\n') :
    splitlines ('\r' :: d :: r2) = [] :: splitlines (d :: r2) := by
  simp [splitlines, hd, show isLineBreak '\r' = true from by decide]
theorem splitlines_break_cons (d : Char) (r2 : List Char)
    (h : isLineBreak d = true) (hd : d ≠ '\r') :
    splitlines (d :: r2) = [] :: splitlines r2 := by
  cases r2 with
  | nil => simp [splitlines, h, hd]
  | cons e r3 => simp [splitlines, h, hd]
theorem splitlines_nonbreak_cons (d : Char) (r2 : List Char)
    (h : ¬ isLineBreak d = true) :
    splitlines (d :: r2) =
      (match splitlines r2 with
       | [] => [[d]]
       | l :: ls => (d :: l) :: ls) := by
  cases r2 with
  | nil => simp [splitlines, h]
  | cons e r3 => simp [splitlines, h]
theorem splitlines_noBreak (x : List Char) :
    ∀ l ∈ splitlines x, ∀ c ∈ l, isLineBreak c = false := by
  induction x using splitlines.induct with
  | case1 => simp [splitlines]
  | case2 h => intro l hl c hc; rw [splitlines_cr_nil] at hl; simp at hl; subst hl; simp at hc
  | case3 r2 h ih =>
    intro l hl c hc
    rw [splitlines_crlf] at hl
    rcases List.mem_cons.mp hl with rfl | hl'
    · simp at hc
    · exact ih l hl' c hc
  | case4 d r2 hd h ih =>
    intro l hl c hc
    rw [splitlines_cr_cons d r2 hd] at hl
    rcases List.mem_cons.mp hl with rfl | hl'
    · simp at hc
    · exact ih l hl' c hc
  | case5 d r2 h hd ih =>
    intro l hl c hc
    rw [splitlines_break_cons d r2 h hd] at hl
    rcases List.mem_cons.mp hl with rfl | hl'
    · simp at hc
    · exact ih l hl' c hc
  | case6 d r2 h hr ih =>
    intro l hl c hc
    rw [splitlines_nonbreak_cons d r2 h, hr] at hl
    simp at hl
    subst hl
    simp at hc
    subst hc
    simpa using h
  | case7 d r2 h l' ls' hr ih =>
    intro l hl c hc
    rw [splitlines_nonbreak_cons d r2 h, hr] at hl
    rcases List.mem_cons.mp hl with rfl | hl'
    · rcases List.mem_cons.mp hc with rfl | hc'
      · simpa using h
      · exact ih l' (hr ▸ List.mem_cons_self l' ls') c hc'
    · exact ih l (hr ▸ List.mem_cons_of_mem l' hl') c hc
theorem splitlines_mem (x : List Char) :
    ∀ l ∈ splitlines x, ∀ c ∈ l, c ∈ x := by
  induction x using splitlines.induct with
  | case1 => simp [splitlines]
  | case2 h => intro l hl c hc; rw [splitlines_cr_nil] at hl; simp at hl; subst hl; simp at hc
  | case3 r2 h ih =>
    intro l hl c hc
    rw [splitlines_crlf] at hl
    rcases List.mem_cons.mp hl with rfl | hl'
    · simp at hc
    · exact List.mem_cons_of_mem _ (List.mem_cons_of_mem _ (ih l hl' c hc))
  | case4 d r2 hd h ih =>
    intro l hl c hc
    rw [splitlines_cr_cons d r2 hd] at hl
    rcases List.mem_cons.mp hl with rfl | hl'
    · simp at hc
    · exact List.mem_cons_of_mem _ (ih l hl' c hc)
  | case5 d r2 h hd ih =>
    intro l hl c hc
    rw [splitlines_break_cons d r2 h hd] at hl
    rcases List.mem_cons.mp hl with rfl | hl'
    · simp at hc
    · exact List.mem_cons_of_mem _ (ih l hl' c hc)
  | case6 d r2 h hr ih =>
    intro l hl c hc
    rw [splitlines_nonbreak_cons d r2 h, hr] at hl
    simp at hl
    subst hl
    simp at hc
    subst hc
    exact List.mem_cons_self _ _
  | case7 d r2 h l' ls' hr ih =>
    intro l hl c hc
    rw [splitlines_nonbreak_cons d r2 h, hr] at hl
    rcases List.mem_cons.mp hl with rfl | hl'
    · rcases List.mem_cons.mp hc with rfl | hc'
      · exact List.mem_cons_self _ _
      · exact List.mem_cons_of_mem _ (ih l' (hr ▸ List.mem_cons_self l' ls') c hc')
    · exact List.mem_cons_of_mem _ (ih l (hr ▸ List.mem_cons_of_mem l' hl') c hc)
theorem splitlines_append_newline (x : List Char)
    (hl : x.getLast?.map isLineBreak = some false) :
    splitlines (x ++ ['\n']) = splitlines x := by
  induction x using splitlines.induct with
  | case1 => simp at hl
  | case2 h => simp at hl; exact absurd hl (by decide)
  | case3 r2 h ih =>
    cases r2 with
    | nil => simp at hl; exact absurd hl (by decide)
    | cons e r3 =>
      rw [List.getLast?_cons_cons, List.getLast?_cons_cons] at hl
      have := ih hl
      rw [List.cons_append, List.cons_append, splitlines_crlf, splitlines_crlf, this]
  | case4 d r2 hd h ih =>
    rw [List.getLast?_cons_cons] at hl
    have := ih hl
    rw [List.cons_append, List.cons_append, splitlines_cr_cons d _ hd, ← List.cons_append,
      this, splitlines_cr_cons d r2 hd]
  | case5 d r2 h hd ih =>
    cases r2 with
    | nil =>
      simp only [List.getLast?_singleton, Option.map_some', Option.some.injEq] at hl
      rw [hl] at h
      simp at h
    | cons e r3 =>
      rw [List.getLast?_cons_cons] at hl
      have := ih hl
      rw [List.cons_append, splitlines_break_cons d _ h hd, this,
        splitlines_break_cons d _ h hd]
  | case6 d r2 h hr ih =>
    cases r2 with
    | nil =>
      rw [List.cons_append, List.nil_append, splitlines_nonbreak_cons d _ h,
        splitlines_nonbreak_cons d _ h,
        splitlines_break_cons '\n' [] (by decide) (by decide), splitlines_nil]
    | cons e r3 =>
      rw [List.getLast?_cons_cons] at hl
      have := ih hl
      rw [List.cons_append, splitlines_nonbreak_cons d _ h, this, hr,
        splitlines_nonbreak_cons d _ h, hr]
  | case7 d r2 h l' ls' hr ih =>
    cases r2 with
    | nil => rw [splitlines_nil] at hr; exact absurd hr (by simp)
    | cons e r3 =>
      rw [List.getLast?_cons_cons] at hl
      have := ih hl
      rw [List.cons_append, splitlines_nonbreak_cons d _ h, this, hr,
        splitlines_nonbreak_cons d _ h, hr]
theorem splitlines_line_append (l t : List Char)
    (h : ∀ c ∈ l, isLineBreak c = false) :
    splitlines (l ++ '\n' :: t) = l :: splitlines t := by
  induction l with
  | nil =>
    rw [List.nil_append]
    exact splitlines_break_cons '\n' t (by decide) (by decide)
  | cons c l' ih =>
    have hc : isLineBreak c = false := h c (List.mem_cons_self _ _)
    have ih' := ih (fun d hd => h d (List.mem_cons_of_mem _ hd))
    rw [List.cons_append, splitlines_nonbreak_cons c _ (by simp [hc]), ih']
theorem splitlines_singleton (l : List Char) (hne : l ≠ [])
    (h : ∀ c ∈ l, isLineBreak c = false) :
    splitlines l = [l] := by
  induction l with
  | nil => exact absurd rfl hne
  | cons c l' ih =>
    have hc : isLineBreak c = false := h c (List.mem_cons_self _ _)
    cases l' with
    | nil =>
      rw [splitlines_nonbreak_cons c [] (by simp [hc]), splitlines_nil]
    | cons e r =>
      have := ih (by simp) (fun d hd => h d (List.mem_cons_of_mem _ hd))
      rw [splitlines_nonbreak_cons c _ (by simp [hc]), this]
theorem splitlines_joinLines (ls : List (List Char))
    (h1 : ∀ l ∈ ls, ∀ c ∈ l, isLineBreak c = false)
    (h2 : ls.getLast? ≠ some []) :
    splitlines (joinLines ls) = ls := by
  induction ls with
  | nil => rfl
  | cons l ls' ih =>
    cases ls' with
    | nil =>
      have hne : l ≠ [] := by
        intro hl
        exact h2 (by simp [hl])
      exact splitlines_singleton l hne (h1 l (List.mem_cons_self _ _))
    | cons l2 rest =>
      have hjoin : joinLines (l :: l2 :: rest) = l ++ '\n' :: joinLines (l2 :: rest) := rfl
      rw [hjoin, splitlines_line_append l _ (h1 l (List.mem_cons_self _ _)),
        ih (fun m hm => h1 m (List.mem_cons_of_mem _ hm)) (by rwa [List.getLast?_cons_cons] at h2)]
theorem fixTripleQuote_cons (c : Char) (rest : List Char)
    (hne : ∀ r, c = '\\' → rest = '"' :: '\\' :: '"' :: '\\' :: '"' :: r → False) :
    fixTripleQuote (c :: rest) = c :: fixTripleQuote rest := by
  rw [fixTripleQuote]
  exact hne
theorem fixTripleQuote_cons_of_ne (c : Char) (rest : List Char) (h : c ≠ '\\') :
    fixTripleQuote (c :: rest) = c :: fixTripleQuote rest :=
  fixTripleQuote_cons c rest (fun _ hc _ => absurd hc h)
theorem fixTripleQuote_of_no_backslash (l : List Char)
    (h : ∀ c ∈ l, c ≠ '\\') : fixTripleQuote l = l := by
  induction l using fixTripleQuote.induct with
  | case1 rest ih => exact absurd rfl (h '\\' (by simp))
  | case2 c rest hne ih =>
    rw [fixTripleQuote_cons c rest hne,
      ih (fun d hd => h d (List.mem_cons_of_mem _ hd))]
  | case3 => rfl
theorem mem_fixTripleQuote (l : List Char) :
    ∀ c ∈ fixTripleQuote l, c ∈ l ∨ c = '"' := by
  induction l using fixTripleQuote.induct with
  | case1 rest ih =>
    intro c hc
    rw [fixTripleQuote] at hc
    rcases List.mem_cons.mp hc with rfl | hc'
    · exact Or.inr rfl
    rcases List.mem_cons.mp hc' with rfl | hc2
    · exact Or.inr rfl
    rcases List.mem_cons.mp hc2 with rfl | hc3
    · exact Or.inr rfl
    rcases ih c hc3 with hm | he
    · exact Or.inl (by simp [hm])
    · exact Or.inr he
  | case2 d rest hne ih =>
    intro c hc
    rw [fixTripleQuote_cons d rest hne] at hc
    rcases List.mem_cons.mp hc with rfl | hc'
    · exact Or.inl (List.mem_cons_self _ _)
    rcases ih c hc' with hm | he
    · exact Or.inl (List.mem_cons_of_mem _ hm)
    · exact Or.inr he
  | case3 =>
    intro c hc
    exact absurd hc (by simp [fixTripleQuote])
theorem fixTripleQuote_ne_nil (l : List Char) (h : l ≠ []) :
    fixTripleQuote l ≠ [] := by
  induction l using fixTripleQuote.induct with
  | case1 rest ih => rw [fixTripleQuote]; simp
  | case2 c rest hne ih => rw [fixTripleQuote_cons c rest hne]; simp
  | case3 => exact absurd rfl h
theorem mem_lstrip (l : List Char) {c : Char} (hc : c ∈ lstrip l) : c ∈ l :=
  (List.dropWhile_sublist _).subset hc
theorem lstrip_append_getLast (l : List Char) (c : Char) (hc : isPySpace c = false) :
    (lstrip (l ++ [c])).getLast? = some c := by
  induction l with
  | nil =>
    unfold lstrip
    rw [List.nil_append, List.dropWhile_cons]
    simp [hc]
  | cons a l' ih =>
    unfold lstrip at ih ⊢
    rw [List.cons_append, List.dropWhile_cons]
    by_cases ha : isPySpace a
    · simp only [ha, if_true]
      exact ih
    · simp only [ha, if_false, Bool.false_eq_true]
      rw [show a :: (l' ++ [c]) = (a :: l') ++ [c] from rfl, List.getLast?_concat]
theorem rstrip_eq_self (l : List Char) (c : Char) (h : l.getLast? = some c)
    (hc : isPySpace c = false) : rstrip l = l := by
  unfold rstrip
  rw [← List.head?_reverse] at h
  cases hrev : l.reverse with
  | nil => rw [hrev] at h; simp at h
  | cons d t =>
    rw [hrev] at h
    simp only [List.head?_cons, Option.some.injEq] at h
    subst h
    rw [List.dropWhile_cons]
    simp only [hc, if_false, Bool.false_eq_true]
    rw [← hrev, List.reverse_reverse]
theorem colonFixed_cases (l : List Char) :
    colonFixed l = l ∨ colonFixed l = l ++ [':'] := by
  unfold colonFixed
  split_ifs <;> simp
theorem colonFixed_of_endsColon (l : List Char) (hh : ∀ c ∈ l, c ≠ '#')
    (h : endsWithB ':' (lstrip l) = true) : colonFixed l = l := by
  have hlast : (lstrip l).getLast? = some ':' := by
    unfold endsWithB at h
    exact eq_of_beq h
  have htake : (lstrip l).takeWhile (fun c => decide (c ≠ '#')) = lstrip l :=
    List.takeWhile_eq_self_iff.mpr (fun c hc => by
      simpa using hh c (mem_lstrip l hc))
  have hrstrip : rstrip (lstrip l) = lstrip l :=
    rstrip_eq_self _ ':' hlast (by decide)
  unfold colonFixed
  rw [h, htake, hrstrip, h]
  simp
theorem colonFixed_append_colon (l : List Char) (hh : ∀ c ∈ l, c ≠ '#') :
    colonFixed (l ++ [':']) = l ++ [':'] := by
  apply colonFixed_of_endsColon
  · intro c hc
    rcases List.mem_append.mp hc with h | h
    · exact hh c h
    · simp at h
      subst h
      decide
  · unfold endsWithB
    rw [lstrip_append_getLast l ':' (by decide)]
    rfl
theorem colonFixed_idem (l : List Char) (hh : ∀ c ∈ l, c ≠ '#') :
    colonFixed (colonFixed l) = colonFixed l := by
  rcases colonFixed_cases l with h | h
  · rw [h]
    exact h
  · rw [h]
    exact colonFixed_append_colon l hh
theorem mem_colonFixed (l : List Char) {c : Char} (hc : c ∈ colonFixed l) :
    c ∈ l ∨ c = ':' := by
  rcases colonFixed_cases l with h | h
  · exact Or.inl (h ▸ hc)
  · rw [h] at hc
    rcases List.mem_append.mp hc with hm | hm
    · exact Or.inl hm
    · simp at hm
      exact Or.inr hm
theorem colonFixed_ne_nil (l : List Char) (h : l ≠ []) : colonFixed l ≠ [] := by
  rcases colonFixed_cases l with hc | hc <;> rw [hc] <;> simp [h]
theorem processLine_eq_colonFixed (l : List Char) (hb : ∀ c ∈ l, c ≠ '\\') :
    processLine l = colonFixed l := by
  unfold processLine
  apply fixTripleQuote_of_no_backslash
  intro c hc
  rcases mem_colonFixed l hc with hm | hm
  · exact hb c hm
  · subst hm
    decide
theorem processLine_idem (l : List Char) (hb : ∀ c ∈ l, c ≠ '\\')
    (hh : ∀ c ∈ l, c ≠ '#') :
    processLine (processLine l) = processLine l := by
  have hb' : ∀ c ∈ colonFixed l, c ≠ '\\' := by
    intro c hc
    rcases mem_colonFixed l hc with hm | hm
    · exact hb c hm
    · subst hm
      decide
  have hh' : ∀ c ∈ colonFixed l, c ≠ '#' := by
    intro c hc
    rcases mem_colonFixed l hc with hm | hm
    · exact hh c hm
    · subst hm
      decide
  rw [processLine_eq_colonFixed l hb, processLine_eq_colonFixed _ hb',
    colonFixed_idem l hh]
theorem processLine_noBreak (l : List Char) (h : ∀ c ∈ l, isLineBreak c = false) :
    ∀ c ∈ processLine l, isLineBreak c = false := by
  intro c hc
  unfold processLine at hc
  rcases mem_fixTripleQuote _ c hc with hm | hm
  · rcases mem_colonFixed l hm with hm' | hm'
    · exact h c hm'
    · subst hm'
      decide
  · subst hm
    decide
theorem processLine_ne_nil (l : List Char) (h : l ≠ []) : processLine l ≠ [] :=
  fixTripleQuote_ne_nil _ (colonFixed_ne_nil l h)
theorem getLast?_map_pl (f : List Char → List Char) (ls : List (List Char)) :
    (ls.map f).getLast? = ls.getLast?.map f := by
  induction ls with
  | nil => rfl
  | cons l ls' ih =>
    cases ls' with
    | nil => rfl
    | cons l2 rest =>
      rw [List.map_cons, List.map_cons, List.getLast?_cons_cons, ← List.map_cons,
        List.getLast?_cons_cons, ih]

/-- Counterexample to claim C5 as stated: stage 1 is not idempotent.  On
`xC5`, a second application adds a second colon to the commented `class`
header, rewrites a triple-quote pattern that the first pass created, and
drops the trailing empty line produced by the join/split round-trip. -/
theorem fixSyntax_not_idempotent :
    fixSyntax (fixSyntax xC5) ≠ fixSyntax xC5 := by decide

/-- Claim C5 (amended): stage 1 is idempotent on every input that contains
no backslash and no `#` character and whose split has no trailing empty
line; already-correct colons are untouched.  (The excluded inputs are
exactly the three failure modes exhibited by the counterexample.) -/
theorem fixSyntax_idem (x : List Char) (hb : ∀ c ∈ x, c ≠ '\\')
    (hh : ∀ c ∈ x, c ≠ '#') (hlast : (splitlines x).getLast? ≠ some []) :
    fixSyntax (fixSyntax x) = fixSyntax x := by
  unfold fixSyntax
  rw [splitlines_joinLines ((splitlines x).map processLine)]
  · rw [List.map_map]
    apply congrArg joinLines
    apply List.map_congr_left
    intro l hl
    show processLine (processLine l) = processLine l
    exact processLine_idem l
      (fun c hc => hb c (splitlines_mem x l hl c hc))
      (fun c hc => hh c (splitlines_mem x l hl c hc))
  · intro m hm c hc
    rw [List.mem_map] at hm
    obtain ⟨l0, hl0, rfl⟩ := hm
    exact processLine_noBreak l0 (splitlines_noBreak x l0 hl0) c hc
  · rw [getLast?_map_pl]
    intro hcon
    cases hsl : (splitlines x).getLast? with
    | none => rw [hsl] at hcon; simp at hcon
    | some l0 =>
      rw [hsl] at hcon
      simp only [Option.map_some', Option.some.injEq] at hcon
      have hl0 : l0 ≠ [] := fun hnil => hlast (hnil ▸ hsl)
      exact processLine_ne_nil l0 hl0 hcon

/-- Witness for C5 (amended): a concrete tame input. -/
theorem fixSyntax_idem_witness :
    (∀ c ∈ "try\n    x = 1".data, c ≠ '\\') ∧
    (∀ c ∈ "try\n    x = 1".data, c ≠ '#') ∧
    (splitlines "try\n    x = 1".data).getLast? ≠ some [] ∧
    fixSyntax (fixSyntax "try\n    x = 1".data) = fixSyntax "try\n    x = 1".data :=
  ⟨by decide, by decide, by decide,
    fixSyntax_idem "try\n    x = 1".data (by decide) (by decide) (by decide)⟩

theorem fixSyntax_trailing_newline (x : List Char)
    (hl : x.getLast?.map isLineBreak = some false) :
    fixSyntax (x ++ ['\n']) = fixSyntax x := by
  unfold fixSyntax
  rw [splitlines_append_newline x hl]

/-- Claim C9: stage 1 returns its processed lines joined with `"\n"`: a
trailing final newline is dropped, CRLF and lone CR are normalized to
`"\n"`, and a text that needs no colon fix but ends in a newline is not
returned byte-for-byte unchanged. -/
theorem fixSyntax_normalizes_line_endings :
    (∀ x : List Char, x.getLast?.map isLineBreak = some false →
      fixSyntax (x ++ ['\n']) = fixSyntax x) ∧
    fixSyntax "a = 1\r\nb = 2".data = "a = 1\nb = 2".data ∧
    fixSyntax "a = 1\rb = 2".data = "a = 1\nb = 2".data ∧
    fixSyntax "a = 1\n".data = "a = 1".data ∧
    fixSyntax "a = 1\n".data ≠ "a = 1\n".data :=
  ⟨fixSyntax_trailing_newline, by decide, by decide, by decide, by decide⟩

/-- Witness for C9: dropping the trailing newline of a concrete input. -/
theorem fixSyntax_normalizes_line_endings_witness :
    ("x = 1".data.getLast?.map isLineBreak = some false) ∧
    fixSyntax ("x = 1".data ++ ['\n']) = fixSyntax "x = 1".data :=
  ⟨by decide, fixSyntax_normalizes_line_endings.1 "x = 1".data (by decide)⟩

/-- Claim C10: every line whose stripped form starts with the three
characters `"try"` and does not end with `":"` gets a colon appended by
stage 1 — including lines that are not `try` statements, such as
`try_count = 0`, so stage 1 can modify already-valid code. -/
theorem fixSyntax_try_overmatch :
    (∀ l : List Char, (∀ c ∈ l, c ≠ '\\') →
      tryS.isPrefixOf (lstrip l) = true → endsWithB ':' (lstrip l) = false →
      processLine l = l ++ [':']) ∧
    fixSyntax "try_count = 0".data = "try_count = 0:".data := by
  refine ⟨?_, by decide⟩
  intro l hb h1 h2
  unfold processLine
  have hcf : colonFixed l = l ++ [':'] := by
    unfold colonFixed
    rw [h1, h2]
    simp
  rw [hcf]
  apply fixTripleQuote_of_no_backslash
  intro c hc
  rcases List.mem_append.mp hc with h | h
  · exact hb c h
  · simp at h
    subst h
    decide

/-- Witness for C10: the `try_count = 0` line gains a colon. -/
theorem fixSyntax_try_overmatch_witness :
    (∀ c ∈ "try_count = 0".data, c ≠ '\\') ∧
    tryS.isPrefixOf (lstrip "try_count = 0".data) = true ∧
    endsWithB ':' (lstrip "try_count = 0".data) = false ∧
    processLine "try_count = 0".data = "try_count = 0".data ++ [':'] :=
  ⟨by decide, by decide, by decide,
    fixSyntax_try_overmatch.1 "try_count = 0".data (by decide) (by decide) (by decide)⟩
